import Mathlib

/-!
Verification of the log-line formatting and escaping logic of the `logger`
HTTP access-logging middleware (file `logger.go`).

Strings are modelled as lists of byte values (`List Nat`, each element < 256
at every point where the code produces one).  Go's `string` is an arbitrary
byte sequence, scanned by the escaping primitive one UTF-8 code point (or one
invalid byte) at a time, so a byte-level embedding is the faithful one.

Standard-library functions called by the code are modelled as follows:
  * `unicode/utf8.DecodeRuneInString` / `EncodeRune` — `decodeUtf8` /
    `encodeRune` below, implementing the strict UTF-8 automaton (acceptance
    ranges rejecting overlong forms, surrogates and code points above
    U+10FFFF; every failure yields `(0xFFFD, 1)`).
  * `strconv.IsPrint` — `isPrint` below.  Go's fast path for code points up
    to U+00FF is reproduced exactly; above U+00FF Go consults generated
    Unicode tables, which we abstract as "is a Unicode scalar value".  No
    theorem in this file depends on the classification above U+00FF: the
    predicate only ever appears identically on both sides (as a hypothesis
    and as the branch condition it feeds).
  * `strconv.Itoa` — `itoa` below.
  * `net.SplitHostPort` — `splitHostPort` below, following the control flow
    of the Go implementation (last-colon split, bracket handling, stray
    bracket/colon checks), with `none` for every error return.
  * `time.Time.Format "02/Jan/2006:15:04:05 -0700"` — `formatLogTime` over an
    explicit broken-down time (`LogTime`).
  * `fmt.Sprintf "%.3fms"` of `float64(ns)/1e6` (in `prettyDuration`) — the
    binary64 computation is modelled as the exact rational `ns / 10^6`
    rounded to 3 decimal digits, round half to even.  This agrees with the
    floating-point computation except possibly on inputs where the quotient
    falls within one binary ulp of a decimal midpoint; those boundary cases
    are not the subject of any claim below.
-/

set_option maxHeartbeats 2000000

namespace Logger

/-- Byte of the lowercase hex digit for `d < 16`; models indexing the Go
constant `lowerhex = "0123456789abcdef"`. -/
def lowerhex (d : Nat) : Nat :=
  if d < 10 then 0x30 + d else 0x57 + d

/-- Models `strconv.IsPrint`.  The branch for code points up to `0xFF` is
Go's fast path, reproduced exactly (printable ASCII, and Latin-1 `0xA1`-`0xFF`
except soft hyphen `0xAD`).  Above `0xFF` Go consults its generated Unicode
range tables; that lookup is abstracted here as "is a Unicode scalar value"
(not a surrogate, not above `0x10FFFF`).  No theorem below depends on the
classification above `0xFF`. -/
def isPrint (r : Nat) : Bool :=
  if r ≤ 0xFF then
    if 0x20 ≤ r ∧ r ≤ 0x7E then true
    else if 0xA1 ≤ r then (if r = 0xAD then false else true)
    else false
  else if 0xD800 ≤ r ∧ r ≤ 0xDFFF then false
  else if r ≤ 0x10FFFF then true
  else false

/-- Models `unicode/utf8.EncodeRune`: the UTF-8 encoding of a code point,
with surrogates and out-of-range values encoded as U+FFFD. -/
def encodeRune (r : Nat) : List Nat :=
  if r < 0x80 then [r]
  else if r < 0x800 then [0xC0 + r / 64, 0x80 + r % 64]
  else if (0xD800 ≤ r ∧ r ≤ 0xDFFF) ∨ 0x10FFFF < r then [0xEF, 0xBF, 0xBD]
  else if r < 0x10000 then
    [0xE0 + r / 4096, 0x80 + (r / 64) % 64, 0x80 + r % 64]
  else
    [0xF0 + r / 262144, 0x80 + (r / 4096) % 64, 0x80 + (r / 64) % 64,
     0x80 + r % 64]

/-- Second-byte acceptance range of the strict UTF-8 automaton for a
three-byte sequence headed by `b0` (Go's `acceptRanges`): `0xE0` requires
`A0..BF` (no overlong forms), `0xED` requires `80..9F` (no surrogates). -/
def utf8Accept3 (b0 b1 : Nat) : Bool :=
  if b0 = 0xE0 then decide (0xA0 ≤ b1 ∧ b1 ≤ 0xBF)
  else if b0 = 0xED then decide (0x80 ≤ b1 ∧ b1 ≤ 0x9F)
  else decide (0x80 ≤ b1 ∧ b1 ≤ 0xBF)

/-- Second-byte acceptance range for a four-byte sequence headed by `b0`:
`0xF0` requires `90..BF` (no overlong forms), `0xF4` requires `80..8F`
(nothing above U+10FFFF). -/
def utf8Accept4 (b0 b1 : Nat) : Bool :=
  if b0 = 0xF0 then decide (0x90 ≤ b1 ∧ b1 ≤ 0xBF)
  else if b0 = 0xF4 then decide (0x80 ≤ b1 ∧ b1 ≤ 0x8F)
  else decide (0x80 ≤ b1 ∧ b1 ≤ 0xBF)

/-- Models `unicode/utf8.DecodeRuneInString` on a byte sequence: returns the
first decoded code point and the number of bytes it occupies.  Every
malformed, truncated, overlong, surrogate or out-of-range sequence yields
`(0xFFFD, 1)` (RuneError with width 1), exactly as in Go. -/
def decodeUtf8 : List Nat → Nat × Nat
  | [] => (0xFFFD, 0)
  | b0 :: rest =>
    if b0 < 0x80 then (b0, 1)
    else if b0 < 0xC2 then (0xFFFD, 1)
    else if b0 ≤ 0xDF then
      match rest with
      | b1 :: _ =>
        if 0x80 ≤ b1 ∧ b1 ≤ 0xBF then ((b0 - 0xC0) * 64 + (b1 - 0x80), 2)
        else (0xFFFD, 1)
      | [] => (0xFFFD, 1)
    else if b0 ≤ 0xEF then
      match rest with
      | b1 :: b2 :: _ =>
        if utf8Accept3 b0 b1 = true ∧ 0x80 ≤ b2 ∧ b2 ≤ 0xBF then
          ((b0 - 0xE0) * 4096 + (b1 - 0x80) * 64 + (b2 - 0x80), 3)
        else (0xFFFD, 1)
      | _ => (0xFFFD, 1)
    else if b0 ≤ 0xF4 then
      match rest with
      | b1 :: b2 :: b3 :: _ =>
        if utf8Accept4 b0 b1 = true ∧ (0x80 ≤ b2 ∧ b2 ≤ 0xBF) ∧ (0x80 ≤ b3 ∧ b3 ≤ 0xBF) then
          ((b0 - 0xF0) * 262144 + (b1 - 0x80) * 4096 + (b2 - 0x80) * 64
            + (b3 - 0x80), 4)
        else (0xFFFD, 1)
      | _ => (0xFFFD, 1)
    else (0xFFFD, 1)

/-- Rendering `\uHHHH` (backslash, `u`, four lowercase hex digits), as in the
`r < 0x10000` arm of `appendQuoted`'s final switch. -/
def hexEscapeU (r : Nat) : List Nat :=
  [0x5C, 0x75, lowerhex (r / 4096 % 16), lowerhex (r / 256 % 16),
   lowerhex (r / 16 % 16), lowerhex (r % 16)]

/-- Rendering `\UHHHHHHHH` (backslash, `U`, eight lowercase hex digits), as
in the default arm of `appendQuoted`'s final switch. -/
def hexEscapeBigU (r : Nat) : List Nat :=
  [0x5C, 0x55, lowerhex (r / 268435456 % 16), lowerhex (r / 16777216 % 16),
   lowerhex (r / 1048576 % 16), lowerhex (r / 65536 % 16),
   lowerhex (r / 4096 % 16), lowerhex (r / 256 % 16),
   lowerhex (r / 16 % 16), lowerhex (r % 16)]

/-- The final `switch` of `appendQuoted` (logger.go lines 100-118): rendering
of a non-printable code point `r` that is none of the seven mnemonic control
characters.  `b0` is the first byte of the current position (`s[0]` in Go),
used by the `\xHH` arm.  A code point above `utf8.MaxRune = 0x10FFFF` is
replaced by `0xFFFD` and falls through to the `\uHHHH` arm. -/
def escFallback (r b0 : Nat) : List Nat :=
  if r < 0x20 then [0x5C, 0x78, lowerhex (b0 / 16), lowerhex (b0 % 16)]
  else if 0x10FFFF < r then hexEscapeU 0xFFFD
  else if r < 0x10000 then hexEscapeU r
  else hexEscapeBigU r

/-- Body of one iteration of `appendQuoted`'s loop after the decode step
(logger.go lines 68-119), applied to the decoded code point `r`, its width
`w`, and the raw first byte `b0` of the current position: returns the bytes
appended by this iteration and the width by which the scan advances. -/
def quoteRune (r w b0 : Nat) : List Nat × Nat :=
  if w = 1 ∧ r = 0xFFFD then
    ([0x5C, 0x78, lowerhex (b0 / 16), lowerhex (b0 % 16)], 1)
  else if r = 0x22 ∨ r = 0x5C then ([0x5C, r], w)
  else if isPrint r then (encodeRune r, w)
  else if r = 0x07 then ([0x5C, 0x61], w)
  else if r = 0x08 then ([0x5C, 0x62], w)
  else if r = 0x0C then ([0x5C, 0x66], w)
  else if r = 0x0A then ([0x5C, 0x6E], w)
  else if r = 0x0D then ([0x5C, 0x72], w)
  else if r = 0x09 then ([0x5C, 0x74], w)
  else if r = 0x0B then ([0x5C, 0x76], w)
  else (escFallback r b0, w)

/-- One iteration of `appendQuoted`'s loop (logger.go lines 62-119) at a
position whose first byte is `b0` and remaining bytes are `rest`: the decode
step (`r := rune(s[0]); width = 1; if r >= RuneSelf { r, width = Decode }`)
followed by the loop body `quoteRune`. -/
def quoteStep (b0 : Nat) (rest : List Nat) : List Nat × Nat :=
  let d := if b0 < 0x80 then (b0, 1) else decodeUtf8 (b0 :: rest)
  quoteRune d.1 d.2 b0

/-- Fuel-indexed worker for `appendQuoted`.  The fuel only serves to make the
recursion structural; `appendQuoted` supplies `s.length`, which is always
sufficient because every iteration advances by at least one byte
(`quoteStep_width_pos`). -/
def appendQuotedGo : Nat → List Nat → List Nat → List Nat
  | _, buf, [] => buf
  | 0, buf, _ :: _ => buf
  | fuel + 1, buf, b0 :: rest =>
    let c := quoteStep b0 rest
    appendQuotedGo fuel (buf ++ c.1) (List.drop (c.2 - 1) rest)

/-- Models `appendQuoted` (logger.go lines 60-122): appends to `buf` the
escaped form of the byte string `s`. -/
def appendQuoted (buf s : List Nat) : List Nat :=
  appendQuotedGo s.length buf s

/-- UTF-8 bytes of a Lean string literal, used to write concrete byte strings
in statements. -/
def strBytes (s : String) : List Nat :=
  s.data.flatMap (fun c => encodeRune c.toNat)

example : strBytes "GET" = [0x47, 0x45, 0x54] := by decide
example : appendQuoted [] (strBytes "a\"b") = strBytes "a\\\"b" := by decide
example : appendQuoted [] [0xFF] = strBytes "\\xff" := by decide
example : appendQuoted [] (strBytes "é") = strBytes "é" := by decide
example : appendQuoted [] [0x01] = strBytes "\\x01" := by decide
example : appendQuoted [] [0x0A] = strBytes "\\n" := by decide

/-- Decimal digit bytes of `n`, accumulator worker (least significant digit
first into `acc`); the fuel argument only makes the recursion structural. -/
def natDigitsGo : Nat → Nat → List Nat → List Nat
  | 0, _, acc => acc
  | fuel + 1, n, acc =>
    if n = 0 then acc else natDigitsGo fuel (n / 10) ((0x30 + n % 10) :: acc)

/-- Decimal digit bytes of a natural number, no padding. -/
def natDigits (n : Nat) : List Nat :=
  if n = 0 then [0x30] else natDigitsGo (n + 1) n []

/-- Models `strconv.Itoa` (on the value as a mathematical integer): decimal
digits with a leading minus sign for negative values. -/
def itoa (i : Int) : List Nat :=
  if i < 0 then 0x2D :: natDigits i.natAbs else natDigits i.natAbs

example : itoa 200 = strBytes "200" := by decide
example : itoa (-13) = strBytes "-13" := by decide

/-- Index of the first occurrence of byte `c`, if any (Go `byteIndex`). -/
def firstIdx : List Nat → Nat → Option Nat
  | [], _ => none
  | b :: rest, c =>
    if b = c then some 0 else (firstIdx rest c).map (· + 1)

/-- Index of the last occurrence of byte `c`, if any (Go `last`). -/
def lastIdx : List Nat → Nat → Option Nat
  | [], _ => none
  | b :: rest, c =>
    match lastIdx rest c with
    | some i => some (i + 1)
    | none => if b = c then some 0 else none

/-- Models `net.SplitHostPort`: splits `host:port`, handling a bracketed
host `[h]:port`; every error return of the Go function is `none` (missing
port, missing bracket, too many colons, stray brackets). -/
def splitHostPort (s : List Nat) : Option (List Nat × List Nat) :=
  match lastIdx s 0x3A with
  | none => none
  | some i =>
    match s with
    | 0x5B :: _ =>
      match firstIdx s 0x5D with
      | none => none
      | some e =>
        if e + 1 = s.length then none
        else if e + 1 = i then
          if (List.drop 1 s).contains 0x5B ∨ (List.drop (e + 1) s).contains 0x5D
          then none
          else some (List.drop 1 (List.take e s), List.drop (i + 1) s)
        else none
    | _ =>
      if (List.take i s).contains 0x3A then none
      else if s.contains 0x5B ∨ s.contains 0x5D then none
      else some (List.take i s, List.drop (i + 1) s)

example : splitHostPort (strBytes "[::1]:54321") = some (strBytes "::1", strBytes "54321") := by decide
example : splitHostPort (strBytes "1.2.3.4:80") = some (strBytes "1.2.3.4", strBytes "80") := by decide
example : splitHostPort (strBytes "1.2.3.4") = none := by decide

/-- Two-digit zero-padded decimal (layout elements `02`, `15`, `04`, `05`). -/
def pad2 (n : Nat) : List Nat :=
  if n < 10 then [0x30, 0x30 + n] else natDigits n

/-- Three-digit zero-padded decimal (fractional part of `%.3f`). -/
def pad3 (n : Nat) : List Nat :=
  if n < 10 then [0x30, 0x30, 0x30 + n]
  else if n < 100 then 0x30 :: natDigits n
  else natDigits n

/-- Four-digit zero-padded decimal (layout element `2006`). -/
def pad4 (n : Nat) : List Nat :=
  if n < 10 then [0x30, 0x30, 0x30, 0x30 + n]
  else if n < 100 then [0x30, 0x30] ++ natDigits n
  else if n < 1000 then 0x30 :: natDigits n
  else natDigits n

/-- Three-letter month abbreviation (layout element `Jan`); months are
numbered 1-12, other values never arise from a Go `time.Time`. -/
def monthAbbrev (m : Nat) : List Nat :=
  match m with
  | 1 => strBytes "Jan" | 2 => strBytes "Feb" | 3 => strBytes "Mar"
  | 4 => strBytes "Apr" | 5 => strBytes "May" | 6 => strBytes "Jun"
  | 7 => strBytes "Jul" | 8 => strBytes "Aug" | 9 => strBytes "Sep"
  | 10 => strBytes "Oct" | 11 => strBytes "Nov" | 12 => strBytes "Dec"
  | _ => []

/-- Broken-down wall-clock time with a zone offset, the data consumed by the
layout `02/Jan/2006:15:04:05 -0700`. -/
structure LogTime where
  day : Nat
  month : Nat
  year : Nat
  hour : Nat
  minute : Nat
  second : Nat
  tzMinutes : Int

/-- Models `ts.Format "02/Jan/2006:15:04:05 -0700"` (logger.go line 165). -/
def formatLogTime (t : LogTime) : List Nat :=
  pad2 t.day ++ [0x2F] ++ monthAbbrev t.month ++ [0x2F] ++ pad4 t.year
    ++ [0x3A] ++ pad2 t.hour ++ [0x3A] ++ pad2 t.minute ++ [0x3A]
    ++ pad2 t.second ++ [0x20]
    ++ (if t.tzMinutes < 0 then [0x2D] else [0x2B])
    ++ pad2 (t.tzMinutes.natAbs / 60) ++ pad2 (t.tzMinutes.natAbs % 60)

example : formatLogTime ⟨2, 1, 2017, 20, 7, 27, 60⟩ = strBytes "02/Jan/2017:20:07:27 +0100" := by decide

/-- Models `prettyDuration` (logger.go lines 125-128), namely
`fmt.Sprintf("%.3fms", float64(dur.Nanoseconds())/float64(1e6))`: the
duration in nanoseconds divided by 10^6, printed with exactly three
fractional digits.  The binary64 arithmetic is modelled as the exact
rational value rounded half-to-even to a whole number of thousandths of a
millisecond (see the header comment for the one caveat). -/
def prettyDuration (ns : Int) : List Nat :=
  let n := ns.natAbs
  let m :=
    n / 1000 +
      (if 500 < n % 1000 ∨ (n % 1000 = 500 ∧ (n / 1000) % 2 = 1) then 1 else 0)
  (if ns < 0 then [0x2D] else []) ++ natDigits (m / 1000) ++ [0x2E]
    ++ pad3 (m % 1000) ++ strBytes "ms"

example : prettyDuration 12000000 = strBytes "12.000ms" := by decide
example : prettyDuration 500000 = strBytes "0.500ms" := by decide
example : prettyDuration 999999 = strBytes "1.000ms" := by decide

/-- The per-request data `buildCommonLogLine` and `writeCombinedLog` read
from Go's `*http.Request`.  `urlUser` models `req.URL.User` together with
its `Username()` (absent when the URL carries no user-info); `urlRequestURI`
models the value of `req.URL.RequestURI()` (the target reconstructed from
the parsed URL, an external `net/url` computation); `referer` and
`userAgent` model `req.Referer()` and `req.UserAgent()`, which yield the
header value or the empty string when the header is absent. -/
structure Request where
  method : List Nat
  requestURI : List Nat
  proto : List Nat
  protoMajor : Nat
  host : List Nat
  remoteAddr : List Nat
  urlUser : Option (List Nat)
  urlRequestURI : List Nat
  referer : List Nat
  userAgent : List Nat

/-- Target-selection logic of `buildCommonLogLine` (logger.go lines
148-158): start from `req.RequestURI`; for a CONNECT request over HTTP/2
use `req.Host` instead; if the result is empty fall back to
`req.URL.RequestURI()`. -/
def requestTarget (req : Request) : List Nat :=
  let uri := req.requestURI
  let uri := if req.protoMajor = 2 ∧ req.method = strBytes "CONNECT"
             then req.host else uri
  if uri = [] then req.urlRequestURI else uri

/-- Models `buildCommonLogLine` (logger.go lines 133-178). -/
def buildCommonLogLine (req : Request) (ts : LogTime) (status size : Int)
    (delay : Int) : List Nat :=
  let username :=
    match req.urlUser with
    | some name => if name = [] then strBytes "-" else name
    | none => strBytes "-"
  let host :=
    match splitHostPort req.remoteAddr with
    | some hp => hp.1
    | none => req.remoteAddr
  let uri := requestTarget req
  let buf := host ++ strBytes " - " ++ username ++ strBytes " ["
    ++ formatLogTime ts ++ strBytes "] \"" ++ req.method ++ strBytes " "
  let buf := appendQuoted buf uri
  buf ++ strBytes " " ++ req.proto ++ strBytes "\" " ++ itoa status
    ++ strBytes " " ++ itoa size ++ strBytes " " ++ prettyDuration delay

/-- Models `writeCommonLog` (logger.go lines 184-188): the exact bytes passed
to the sink's single `Write` call. -/
def writeCommonLog (req : Request) (ts : LogTime) (status size : Int)
    (delay : Int) : List Nat :=
  buildCommonLogLine req ts status size delay ++ [0x0A]

/-- Models `writeCombinedLog` (logger.go lines 193-201): the exact bytes
passed to the sink's single `Write` call. -/
def writeCombinedLog (req : Request) (ts : LogTime) (status size : Int)
    (delay : Int) : List Nat :=
  let buf := buildCommonLogLine req ts status size delay
  let buf := buf ++ strBytes " \""
  let buf := appendQuoted buf req.referer
  let buf := buf ++ strBytes "\" \""
  let buf := appendQuoted buf req.userAgent
  buf ++ [0x22, 0x0A]

example : requestTarget
    { method := strBytes "GET", requestURI := [], proto := strBytes "HTTP/1.1",
      protoMajor := 1, host := [], remoteAddr := [], urlUser := none,
      urlRequestURI := strBytes "/p?q=1", referer := [], userAgent := [] }
    = strBytes "/p?q=1" := by decide

/-! Basic lemmas about the escaping loop. -/

lemma decodeUtf8_width_pos (b0 : Nat) (rest : List Nat) :
    1 ≤ (decodeUtf8 (b0 :: rest)).2 := by
  simp only [decodeUtf8]
  repeat' split
  all_goals simp

lemma quoteRune_width_pos (r w b0 : Nat) (hw : 1 ≤ w) :
    1 ≤ (quoteRune r w b0).2 := by
  unfold quoteRune
  split_ifs <;> first | exact le_rfl | exact hw

lemma quoteStep_width_pos (b0 : Nat) (rest : List Nat) :
    1 ≤ (quoteStep b0 rest).2 := by
  unfold quoteStep
  by_cases hb : b0 < 0x80
  · simp only [hb, if_true, ite_true]
    exact quoteRune_width_pos _ _ _ (by norm_num)
  · simp only [hb, if_false, ite_false]
    exact quoteRune_width_pos _ _ _ (decodeUtf8_width_pos b0 rest)

lemma appendQuotedGo_fuel (f : Nat) :
    ∀ buf s : List Nat, s.length ≤ f →
      appendQuotedGo f buf s = appendQuotedGo s.length buf s := by
  induction f using Nat.strong_induction_on with
  | _ f ih =>
    intro buf s hs
    match f, s with
    | 0, [] => rfl
    | f + 1, [] => rfl
    | 0, b0 :: rest => simp at hs
    | f + 1, b0 :: rest =>
      simp only [List.length_cons, appendQuotedGo]
      have hf : rest.length ≤ f := by simpa using hs
      have h1 : (List.drop ((quoteStep b0 rest).2 - 1) rest).length ≤ f := by
        simp only [List.length_drop]; omega
      have h2 : (List.drop ((quoteStep b0 rest).2 - 1) rest).length ≤ rest.length := by
        simp only [List.length_drop]; omega
      rw [ih f (Nat.lt_succ_self f) _ _ h1, ih rest.length (by omega) _ _ h2]

lemma appendQuoted_nil (buf : List Nat) : appendQuoted buf [] = buf := rfl

lemma appendQuoted_cons (buf : List Nat) (b0 : Nat) (rest : List Nat) :
    appendQuoted buf (b0 :: rest)
      = appendQuoted (buf ++ (quoteStep b0 rest).1)
          (List.drop ((quoteStep b0 rest).2 - 1) rest) := by
  unfold appendQuoted
  simp only [List.length_cons, appendQuotedGo]
  exact appendQuotedGo_fuel rest.length _ _ (by simp only [List.length_drop]; omega)

lemma appendQuoted_buf_aux :
    ∀ n s, List.length s ≤ n → ∀ buf : List Nat,
      appendQuoted buf s = buf ++ appendQuoted [] s := by
  intro n
  induction n with
  | zero =>
    intro s hs buf
    have : s = [] := List.eq_nil_of_length_eq_zero (by omega)
    subst this
    simp [appendQuoted_nil]
  | succ n ih =>
    intro s hs buf
    match s with
    | [] => simp [appendQuoted_nil]
    | b0 :: rest =>
      rw [appendQuoted_cons, appendQuoted_cons]
      have hlen : (List.drop ((quoteStep b0 rest).2 - 1) rest).length ≤ n := by
        simp only [List.length_drop]
        simp only [List.length_cons] at hs
        omega
      rw [ih _ hlen (buf ++ _), ih _ hlen ([] ++ _)]
      simp [List.append_assoc]

/-- The bytes `appendQuoted` appends do not depend on the buffer it extends. -/
lemma appendQuoted_eq_append (buf s : List Nat) :
    appendQuoted buf s = buf ++ appendQuoted [] s :=
  appendQuoted_buf_aux s.length s le_rfl buf

/-! Counting double quotes and backslashes, and backslash-escape pairs. -/

/-- Number of double-quote (`0x22`) and backslash (`0x5C`) bytes in a byte
string. -/
def countQB : List Nat → Nat
  | [] => 0
  | b :: rest => (if b = 0x22 ∨ b = 0x5C then 1 else 0) + countQB rest

/-- Left-to-right scan of an escaped byte string: a backslash consumes the
following byte as its escape payload; counts the payloads that are a double
quote or a backslash (i.e. the `\"` and `\\` escape pairs). -/
def escPairCount : List Nat → Nat
  | [] => 0
  | [_] => 0
  | b :: c :: rest =>
    if b = 0x5C then (if c = 0x22 ∨ c = 0x5C then 1 else 0) + escPairCount rest
    else escPairCount (c :: rest)

lemma countQB_append (a b : List Nat) :
    countQB (a ++ b) = countQB a + countQB b := by
  induction a with
  | nil => simp [countQB]
  | cons x a ih => simp [countQB, ih]; omega

lemma countQB_eq_zero (l : List Nat) (h : ∀ x ∈ l, x ≠ 0x22 ∧ x ≠ 0x5C) :
    countQB l = 0 := by
  induction l with
  | nil => rfl
  | cons x l ih =>
    have hx := h x (by simp)
    simp only [countQB, if_neg (by tauto : ¬(x = 0x22 ∨ x = 0x5C))]
    rw [ih fun y hy => h y (by simp [hy])]

lemma escPairCount_cons₂ (b c : Nat) (rest : List Nat) :
    escPairCount (b :: c :: rest)
      = if b = 0x5C then (if c = 0x22 ∨ c = 0x5C then 1 else 0) + escPairCount rest
        else escPairCount (c :: rest) := rfl

lemma escPairCount_cons_ne (b : Nat) (l : List Nat) (hb : b ≠ 0x5C) :
    escPairCount (b :: l) = escPairCount l := by
  cases l with
  | nil => rfl
  | cons c rest => rw [escPairCount_cons₂, if_neg hb]

lemma escPairCount_append_no5C (a : List Nat) (ha : ∀ x ∈ a, x ≠ 0x5C)
    (t : List Nat) : escPairCount (a ++ t) = escPairCount t := by
  induction a with
  | nil => rfl
  | cons x a ih =>
    rw [List.cons_append, escPairCount_cons_ne x _ (ha x (by simp))]
    exact ih fun y hy => ha y (by simp [hy])

lemma escPairCount_esc (m : Nat) (hm : ¬(m = 0x22 ∨ m = 0x5C))
    (p : List Nat) (hp : ∀ x ∈ p, x ≠ 0x5C) (t : List Nat) :
    escPairCount (0x5C :: m :: (p ++ t)) = escPairCount t := by
  rw [escPairCount_cons₂, if_pos rfl, if_neg hm,
    escPairCount_append_no5C p hp t, Nat.zero_add]

lemma lowerhex_no_qb (d : Nat) : lowerhex d ≠ 0x22 ∧ lowerhex d ≠ 0x5C := by
  unfold lowerhex
  split_ifs <;> omega

lemma encodeRune_ne_nil (r : Nat) : encodeRune r ≠ [] := by
  unfold encodeRune
  split_ifs <;> simp

lemma encodeRune_no_qb (r : Nat) (h22 : r ≠ 0x22) (h5C : r ≠ 0x5C) :
    ∀ x ∈ encodeRune r, x ≠ 0x22 ∧ x ≠ 0x5C := by
  unfold encodeRune
  split_ifs <;> intro x hx <;> simp only [List.mem_cons, List.not_mem_nil,
    or_false] at hx
  all_goals rcases hx with h | h | h | h <;> omega

/-! Structure of one decode step on a non-ASCII first byte. -/

lemma utf8Accept3_bounds (b0 b1 : Nat) (h : utf8Accept3 b0 b1 = true) :
    0x80 ≤ b1 ∧ b1 ≤ 0xBF ∧ (b0 = 0xE0 → 0xA0 ≤ b1) := by
  unfold utf8Accept3 at h
  split_ifs at h with hE0 hED <;> simp at h
  · exact ⟨by omega, h.2, fun _ => h.1⟩
  · exact ⟨h.1, by omega, fun hh => absurd hh hE0⟩
  · exact ⟨h.1, h.2, fun hh => absurd hh hE0⟩

lemma utf8Accept4_bounds (b0 b1 : Nat) (h : utf8Accept4 b0 b1 = true) :
    0x80 ≤ b1 ∧ b1 ≤ 0xBF ∧ (b0 = 0xF0 → 0x90 ≤ b1) := by
  unfold utf8Accept4 at h
  split_ifs at h with hF0 hF4 <;> simp at h
  · exact ⟨by omega, h.2, fun _ => h.1⟩
  · exact ⟨h.1, by omega, fun hh => absurd hh hF0⟩
  · exact ⟨h.1, h.2, fun hh => absurd hh hF0⟩

/-- On a first byte `≥ 0x80`, a decode step either fails (RuneError, width 1)
or consumes `2 ≤ w` bytes, all `≥ 0x80`, and yields a code point `≥ 0x80`. -/
lemma decodeUtf8_spec (b0 : Nat) (rest : List Nat) (hb : 0x80 ≤ b0) :
    decodeUtf8 (b0 :: rest) = (0xFFFD, 1) ∨
    (2 ≤ (decodeUtf8 (b0 :: rest)).2 ∧ 0x80 ≤ (decodeUtf8 (b0 :: rest)).1 ∧
      ∀ x ∈ List.take (decodeUtf8 (b0 :: rest)).2 (b0 :: rest), 0x80 ≤ x) := by
  have h0 : ¬ b0 < 0x80 := by omega
  by_cases h1 : b0 < 0xC2
  · left; simp [decodeUtf8, h0, h1]
  by_cases h2 : b0 ≤ 0xDF
  · rcases rest with _ | ⟨b1, rest'⟩
    · left; simp [decodeUtf8, h0, h1, h2]
    by_cases h3 : 0x80 ≤ b1 ∧ b1 ≤ 0xBF
    · right
      have he : decodeUtf8 (b0 :: b1 :: rest')
          = ((b0 - 0xC0) * 64 + (b1 - 0x80), 2) := by
        simp [decodeUtf8, h0, h1, h2, h3]
      rw [he]
      refine ⟨by norm_num, by omega, ?_⟩
      intro x hx
      rw [List.take_succ_cons, List.take_succ_cons, List.take_zero] at hx
      simp only [List.mem_cons, List.not_mem_nil, or_false] at hx
      rcases hx with h | h <;> omega
    · left; simp [decodeUtf8, h0, h1, h2, h3]
  by_cases h4 : b0 ≤ 0xEF
  · rcases rest with _ | ⟨b1, _ | ⟨b2, rest'⟩⟩
    · left; simp [decodeUtf8, h0, h1, h2, h4]
    · left; simp [decodeUtf8, h0, h1, h2, h4]
    by_cases h5 : utf8Accept3 b0 b1 = true ∧ 0x80 ≤ b2 ∧ b2 ≤ 0xBF
    · right
      have he : decodeUtf8 (b0 :: b1 :: b2 :: rest')
          = ((b0 - 0xE0) * 4096 + (b1 - 0x80) * 64 + (b2 - 0x80), 3) := by
        simp [decodeUtf8, h0, h1, h2, h4, h5]
      rw [he]
      have hacc := utf8Accept3_bounds b0 b1 h5.1
      have hrge : 0x80 ≤ (b0 - 0xE0) * 4096 + (b1 - 0x80) * 64 + (b2 - 0x80) := by
        by_cases hE0 : b0 = 0xE0
        · have := hacc.2.2 hE0; omega
        · omega
      refine ⟨by norm_num, hrge, ?_⟩
      intro x hx
      rw [List.take_succ_cons, List.take_succ_cons, List.take_succ_cons,
        List.take_zero] at hx
      simp only [List.mem_cons, List.not_mem_nil, or_false] at hx
      rcases h5 with ⟨_, h5b⟩
      rcases hx with h | h | h <;> omega
    · left; simp [decodeUtf8, h0, h1, h2, h4, h5]
  by_cases h6 : b0 ≤ 0xF4
  · rcases rest with _ | ⟨b1, _ | ⟨b2, _ | ⟨b3, rest'⟩⟩⟩
    · left; simp [decodeUtf8, h0, h1, h2, h4, h6]
    · left; simp [decodeUtf8, h0, h1, h2, h4, h6]
    · left; simp [decodeUtf8, h0, h1, h2, h4, h6]
    by_cases h7 : utf8Accept4 b0 b1 = true ∧ (0x80 ≤ b2 ∧ b2 ≤ 0xBF)
        ∧ (0x80 ≤ b3 ∧ b3 ≤ 0xBF)
    · right
      have he : decodeUtf8 (b0 :: b1 :: b2 :: b3 :: rest')
          = ((b0 - 0xF0) * 262144 + (b1 - 0x80) * 4096 + (b2 - 0x80) * 64
              + (b3 - 0x80), 4) := by
        simp [decodeUtf8, h0, h1, h2, h4, h6, h7]
      rw [he]
      have hacc := utf8Accept4_bounds b0 b1 h7.1
      have hrge : 0x80 ≤ (b0 - 0xF0) * 262144 + (b1 - 0x80) * 4096
          + (b2 - 0x80) * 64 + (b3 - 0x80) := by
        by_cases hF0 : b0 = 0xF0
        · have := hacc.2.2 hF0; omega
        · omega
      refine ⟨by norm_num, hrge, ?_⟩
      intro x hx
      rw [List.take_succ_cons, List.take_succ_cons, List.take_succ_cons,
        List.take_succ_cons, List.take_zero] at hx
      simp only [List.mem_cons, List.not_mem_nil, or_false] at hx
      rcases h7 with ⟨_, h7b, h7c⟩
      rcases hx with h | h | h | h <;> omega
    · left; simp [decodeUtf8, h0, h1, h2, h4, h6, h7]
  · left; simp [decodeUtf8, h0, h1, h2, h4, h6]

/-! Shape of the bytes emitted by one escaping step. -/

lemma xEscape_shape (b0 : Nat) :
    (∀ x ∈ [0x5C, 0x78, lowerhex (b0 / 16), lowerhex (b0 % 16)], x ≠ 0x22) ∧
    (∀ t, escPairCount ([0x5C, 0x78, lowerhex (b0 / 16), lowerhex (b0 % 16)] ++ t)
        = escPairCount t) := by
  constructor
  · intro x hx
    simp only [List.mem_cons, List.not_mem_nil, or_false] at hx
    rcases hx with h | h | h | h
    · omega
    · omega
    · subst h; exact (lowerhex_no_qb _).1
    · subst h; exact (lowerhex_no_qb _).1
  · intro t
    exact escPairCount_esc 0x78 (by omega)
      [lowerhex (b0 / 16), lowerhex (b0 % 16)]
      (by intro x hx
          simp only [List.mem_cons, List.not_mem_nil, or_false] at hx
          rcases hx with h | h <;> (subst h; exact (lowerhex_no_qb _).2)) t

lemma hexEscapeU_shape (r : Nat) :
    hexEscapeU r ≠ [] ∧ (∀ x ∈ hexEscapeU r, x ≠ 0x22) ∧
    (∀ t, escPairCount (hexEscapeU r ++ t) = escPairCount t) := by
  refine ⟨by simp [hexEscapeU], ?_, ?_⟩
  · intro x hx
    simp only [hexEscapeU, List.mem_cons, List.not_mem_nil, or_false] at hx
    rcases hx with h | h | h | h | h | h
    · omega
    · omega
    all_goals (subst h; exact (lowerhex_no_qb _).1)
  · intro t
    exact escPairCount_esc 0x75 (by omega)
      [lowerhex (r / 4096 % 16), lowerhex (r / 256 % 16),
       lowerhex (r / 16 % 16), lowerhex (r % 16)]
      (by intro x hx
          simp only [List.mem_cons, List.not_mem_nil, or_false] at hx
          rcases hx with h | h | h | h <;> (subst h; exact (lowerhex_no_qb _).2)) t

lemma hexEscapeBigU_shape (r : Nat) :
    hexEscapeBigU r ≠ [] ∧ (∀ x ∈ hexEscapeBigU r, x ≠ 0x22) ∧
    (∀ t, escPairCount (hexEscapeBigU r ++ t) = escPairCount t) := by
  refine ⟨by simp [hexEscapeBigU], ?_, ?_⟩
  · intro x hx
    simp only [hexEscapeBigU, List.mem_cons, List.not_mem_nil, or_false] at hx
    rcases hx with h | h | h | h | h | h | h | h | h | h
    · omega
    · omega
    all_goals (subst h; exact (lowerhex_no_qb _).1)
  · intro t
    exact escPairCount_esc 0x55 (by omega)
      [lowerhex (r / 268435456 % 16), lowerhex (r / 16777216 % 16),
       lowerhex (r / 1048576 % 16), lowerhex (r / 65536 % 16),
       lowerhex (r / 4096 % 16), lowerhex (r / 256 % 16),
       lowerhex (r / 16 % 16), lowerhex (r % 16)]
      (by intro x hx
          simp only [List.mem_cons, List.not_mem_nil, or_false] at hx
          rcases hx with h | h | h | h | h | h | h | h <;>
            (subst h; exact (lowerhex_no_qb _).2)) t

lemma escFallback_shape (r b0 : Nat) :
    escFallback r b0 ≠ [] ∧ (∀ x ∈ escFallback r b0, x ≠ 0x22) ∧
    (∀ t, escPairCount (escFallback r b0 ++ t) = escPairCount t) := by
  unfold escFallback
  split_ifs with h1 h2 h3
  · exact ⟨by simp, (xEscape_shape b0).1, (xEscape_shape b0).2⟩
  · exact hexEscapeU_shape 0xFFFD
  · exact hexEscapeU_shape r
  · exact hexEscapeBigU_shape r

lemma pairChunk_shape (m : Nat) (h22 : m ≠ 0x22) (h5C : m ≠ 0x5C) :
    ([0x5C, m] : List Nat) ≠ [] ∧ (∀ x ∈ ([0x5C, m] : List Nat), x ≠ 0x22) ∧
    (∀ t, escPairCount ([0x5C, m] ++ t) = escPairCount t) := by
  refine ⟨by simp, ?_, ?_⟩
  · intro x hx
    simp only [List.mem_cons, List.not_mem_nil, or_false] at hx
    rcases hx with h | h <;> omega
  · intro t
    have h := escPairCount_esc m (by tauto) [] (by simp) t
    simpa using h

/-- On a code point that is neither a quote nor a backslash and is not the
error marker, the loop body emits a nonempty chunk containing no
double-quote byte and contributing no quote/backslash escape pair, and
advances by the decoded width. -/
lemma quoteRune_shape (r w b0 : Nat) (h22 : r ≠ 0x22) (h5C : r ≠ 0x5C)
    (hne : ¬(w = 1 ∧ r = 0xFFFD)) :
    (quoteRune r w b0).1 ≠ [] ∧ (∀ x ∈ (quoteRune r w b0).1, x ≠ 0x22) ∧
    (∀ t, escPairCount ((quoteRune r w b0).1 ++ t) = escPairCount t) ∧
    (quoteRune r w b0).2 = w := by
  unfold quoteRune
  rw [if_neg hne, if_neg (by tauto : ¬(r = 0x22 ∨ r = 0x5C))]
  split_ifs with hp h7 h8 hC hA hD h9 hB
  · exact ⟨encodeRune_ne_nil r,
      fun x hx => (encodeRune_no_qb r h22 h5C x hx).1,
      fun t => escPairCount_append_no5C _
        (fun x hx => (encodeRune_no_qb r h22 h5C x hx).2) t, rfl⟩
  · obtain ⟨p1, p2, p3⟩ := pairChunk_shape 0x61 (by omega) (by omega)
    exact ⟨p1, p2, p3, rfl⟩
  · obtain ⟨p1, p2, p3⟩ := pairChunk_shape 0x62 (by omega) (by omega)
    exact ⟨p1, p2, p3, rfl⟩
  · obtain ⟨p1, p2, p3⟩ := pairChunk_shape 0x66 (by omega) (by omega)
    exact ⟨p1, p2, p3, rfl⟩
  · obtain ⟨p1, p2, p3⟩ := pairChunk_shape 0x6E (by omega) (by omega)
    exact ⟨p1, p2, p3, rfl⟩
  · obtain ⟨p1, p2, p3⟩ := pairChunk_shape 0x72 (by omega) (by omega)
    exact ⟨p1, p2, p3, rfl⟩
  · obtain ⟨p1, p2, p3⟩ := pairChunk_shape 0x74 (by omega) (by omega)
    exact ⟨p1, p2, p3, rfl⟩
  · obtain ⟨p1, p2, p3⟩ := pairChunk_shape 0x76 (by omega) (by omega)
    exact ⟨p1, p2, p3, rfl⟩
  · obtain ⟨e1, e2, e3⟩ := escFallback_shape r b0
    exact ⟨e1, e2, e3, rfl⟩

/-- Case analysis of one full escaping step: the first byte is a quote, a
backslash, or the emitted chunk is quote-free, escape-pair-free and the
consumed bytes contain no quote and no backslash. -/
lemma quoteStep_cases (b0 : Nat) (rest : List Nat) :
    (b0 = 0x22 ∧ quoteStep b0 rest = ([0x5C, 0x22], 1)) ∨
    (b0 = 0x5C ∧ quoteStep b0 rest = ([0x5C, 0x5C], 1)) ∨
    (b0 ≠ 0x22 ∧ b0 ≠ 0x5C ∧ (quoteStep b0 rest).1 ≠ [] ∧
      (∀ x ∈ (quoteStep b0 rest).1, x ≠ 0x22) ∧
      (∀ t, escPairCount ((quoteStep b0 rest).1 ++ t) = escPairCount t) ∧
      (∀ x ∈ List.take (quoteStep b0 rest).2 (b0 :: rest),
        x ≠ 0x22 ∧ x ≠ 0x5C)) := by
  by_cases hb : b0 < 0x80
  · have hq : quoteStep b0 rest = quoteRune b0 1 b0 := by
      unfold quoteStep; rw [if_pos hb]
    rw [hq]
    by_cases hqb : b0 = 0x22 ∨ b0 = 0x5C
    · rcases hqb with h | h
      · left; refine ⟨h, ?_⟩; subst h; decide
      · right; left; refine ⟨h, ?_⟩; subst h; decide
    · right; right
      push_neg at hqb
      obtain ⟨c1, c2, c3, c4⟩ :=
        quoteRune_shape b0 1 b0 hqb.1 hqb.2 (by omega)
      refine ⟨hqb.1, hqb.2, c1, c2, c3, ?_⟩
      rw [c4]
      intro x hx
      rw [List.take_succ_cons, List.take_zero] at hx
      simp only [List.mem_cons, List.not_mem_nil, or_false] at hx
      exact ⟨by omega, by omega⟩
  · push_neg at hb
    have hq : quoteStep b0 rest
        = quoteRune (decodeUtf8 (b0 :: rest)).1 (decodeUtf8 (b0 :: rest)).2 b0 := by
      unfold quoteStep; rw [if_neg (by omega)]
    rw [hq]
    right; right
    refine ⟨by omega, by omega, ?_⟩
    rcases decodeUtf8_spec b0 rest hb with herr | ⟨hw2, hr, hbytes⟩
    · rw [herr]
      have he : quoteRune ((0xFFFD, 1) : Nat × Nat).1 ((0xFFFD, 1) : Nat × Nat).2 b0
          = ([0x5C, 0x78, lowerhex (b0 / 16), lowerhex (b0 % 16)], 1) := by
        unfold quoteRune
        rw [if_pos ⟨rfl, rfl⟩]
      rw [he]
      obtain ⟨s1, s2⟩ := xEscape_shape b0
      refine ⟨by simp, s1, s2, ?_⟩
      intro x hx
      rw [List.take_succ_cons, List.take_zero] at hx
      simp only [List.mem_cons, List.not_mem_nil, or_false] at hx
      exact ⟨by omega, by omega⟩
    · obtain ⟨c1, c2, c3, c4⟩ :=
        quoteRune_shape (decodeUtf8 (b0 :: rest)).1 (decodeUtf8 (b0 :: rest)).2 b0
          (by omega) (by omega) (by omega)
      refine ⟨c1, c2, c3, ?_⟩
      rw [c4]
      intro x hx
      have := hbytes x hx
      exact ⟨by omega, by omega⟩

/-! Escape-pair counting over a full escaping run. -/

lemma escPairCount_qb_cons (x : Nat) (hx : x = 0x22 ∨ x = 0x5C) (t : List Nat) :
    escPairCount (0x5C :: x :: t) = 1 + escPairCount t := by
  rw [escPairCount_cons₂, if_pos rfl, if_pos hx]

lemma countQB_cons (b : Nat) (l : List Nat) :
    countQB (b :: l) = (if b = 0x22 ∨ b = 0x5C then 1 else 0) + countQB l := rfl

lemma escPair_aux :
    ∀ n s, List.length s ≤ n → escPairCount (appendQuoted [] s) = countQB s := by
  intro n
  induction n with
  | zero =>
    intro s hs
    have : s = [] := List.eq_nil_of_length_eq_zero (by omega)
    subst this
    rfl
  | succ n ih =>
    intro s hs
    match s with
    | [] => rfl
    | b0 :: rest =>
      rw [appendQuoted_cons, appendQuoted_eq_append]
      simp only [List.nil_append]
      have hw := quoteStep_width_pos b0 rest
      have hlen : (List.drop ((quoteStep b0 rest).2 - 1) rest).length ≤ n := by
        simp only [List.length_drop]
        simp only [List.length_cons] at hs
        omega
      have hdrop : List.drop ((quoteStep b0 rest).2 - 1) rest
          = List.drop (quoteStep b0 rest).2 (b0 :: rest) := by
        conv_rhs => rw [show (quoteStep b0 rest).2 = ((quoteStep b0 rest).2 - 1) + 1
          from by omega]
        rw [List.drop_succ_cons]
      rcases quoteStep_cases b0 rest with ⟨h, hstep⟩ | ⟨h, hstep⟩
        | ⟨h22, h5C, hne, hnq, hepc, htake⟩
      · subst h
        rw [hstep]
        show escPairCount (0x5C :: 0x22 :: appendQuoted [] (List.drop 0 rest))
            = countQB (0x22 :: rest)
        rw [escPairCount_qb_cons 0x22 (by tauto), List.drop_zero,
          ih rest (by simp only [List.length_cons] at hs; omega), countQB_cons,
          if_pos (by tauto : (0x22 : Nat) = 0x22 ∨ (0x22 : Nat) = 0x5C)]
      · subst h
        rw [hstep]
        show escPairCount (0x5C :: 0x5C :: appendQuoted [] (List.drop 0 rest))
            = countQB (0x5C :: rest)
        rw [escPairCount_qb_cons 0x5C (by tauto), List.drop_zero,
          ih rest (by simp only [List.length_cons] at hs; omega), countQB_cons,
          if_pos (by tauto : (0x5C : Nat) = 0x22 ∨ (0x5C : Nat) = 0x5C)]
      · rw [hepc _, ih _ hlen, hdrop]
        have hone := countQB_eq_zero _ htake
        have hsplit := countQB_append
          (List.take (quoteStep b0 rest).2 (b0 :: rest))
          (List.drop (quoteStep b0 rest).2 (b0 :: rest))
        rw [List.take_append_drop] at hsplit
        omega

/-- Every quote/backslash escape pair in the escaped output corresponds to
exactly one quote or backslash byte of the input. -/
lemma escPairCount_appendQuoted (s : List Nat) :
    escPairCount (appendQuoted [] s) = countQB s :=
  escPair_aux s.length s le_rfl

/-! No unescaped double quote in the escaped output. -/

/-- Every double-quote byte of `l` is immediately preceded by a backslash
byte: the first byte is not a quote, and any quote at a position `i + 1` has
a backslash at position `i`. -/
def NoBareQuote (l : List Nat) : Prop :=
  (∀ h0 : 0 < l.length, l.get ⟨0, h0⟩ ≠ 0x22) ∧
  (∀ i, ∀ hi : i + 1 < l.length, l.get ⟨i + 1, hi⟩ = 0x22 →
    l.get ⟨i, Nat.lt_of_succ_lt hi⟩ = 0x5C)

lemma noBareQuote_nil : NoBareQuote [] :=
  ⟨fun h0 => by simp at h0, fun i hi => by simp at hi⟩

lemma noBareQuote_append {a b : List Nat} (ha : NoBareQuote a)
    (hb : NoBareQuote b) : NoBareQuote (a ++ b) := by
  constructor
  · intro h0
    by_cases hA : 0 < a.length
    · have hg : (a ++ b).get ⟨0, h0⟩ = a.get ⟨0, hA⟩ := by
        simp only [List.get_eq_getElem]
        exact List.getElem_append_left hA
      rw [hg]
      exact ha.1 hA
    · have haeq : a = [] := by
        cases a with
        | nil => rfl
        | cons x l => simp at hA
      subst haeq
      simpa using hb.1 (by simpa using h0)
  · intro i hi hq
    have hi' : i + 1 < a.length + b.length := by
      simpa [List.length_append] using hi
    by_cases h1 : i + 1 < a.length
    · have hgq : (a ++ b).get ⟨i + 1, hi⟩ = a.get ⟨i + 1, h1⟩ := by
        simp only [List.get_eq_getElem]
        exact List.getElem_append_left h1
      have hpr := ha.2 i h1 (by rw [← hgq]; exact hq)
      have hgp : (a ++ b).get ⟨i, Nat.lt_of_succ_lt hi⟩
          = a.get ⟨i, Nat.lt_of_succ_lt h1⟩ := by
        simp only [List.get_eq_getElem]
        exact List.getElem_append_left (Nat.lt_of_succ_lt h1)
      rw [hgp]
      exact hpr
    · push_neg at h1
      by_cases h2 : i + 1 = a.length
      · exfalso
        have hb0 : 0 < b.length := by omega
        have hgq : (a ++ b).get ⟨i + 1, hi⟩
            = b.get ⟨i + 1 - a.length, by omega⟩ := by
          simp only [List.get_eq_getElem]
          exact List.getElem_append_right (by omega)
        have hqb : b.get ⟨i + 1 - a.length, by omega⟩ = 0x22 := by
          rw [← hgq]; exact hq
        have h0eq : i + 1 - a.length = 0 := by omega
        simp only [h0eq] at hqb
        exact hb.1 hb0 hqb
      · have hlt2 : (i - a.length) + 1 < b.length := by omega
        have hgq : (a ++ b).get ⟨i + 1, hi⟩
            = b.get ⟨i + 1 - a.length, by omega⟩ := by
          simp only [List.get_eq_getElem]
          exact List.getElem_append_right (by omega)
        have hq' : b.get ⟨i + 1 - a.length, by omega⟩ = 0x22 := by
          rw [← hgq]; exact hq
        have hidx : i + 1 - a.length = (i - a.length) + 1 := by omega
        simp only [hidx] at hq'
        have hpr := hb.2 (i - a.length) hlt2 hq'
        have hgp : (a ++ b).get ⟨i, Nat.lt_of_succ_lt hi⟩
            = b.get ⟨i - a.length, by omega⟩ := by
          simp only [List.get_eq_getElem]
          exact List.getElem_append_right (by omega)
        rw [hgp]
        exact hpr

lemma noBareQuote_of_no_quote {l : List Nat} (h : ∀ x ∈ l, x ≠ 0x22) :
    NoBareQuote l := by
  constructor
  · intro h0
    exact h _ (List.get_mem l 0 h0)
  · intro i hi hq
    exact absurd hq (h _ (List.get_mem l (i + 1) hi))

lemma noBareQuote_escQuote : NoBareQuote [0x5C, 0x22] := by
  constructor
  · intro h0
    show (0x5C : Nat) ≠ 0x22
    omega
  · intro i hi hq
    have hi0 : i = 0 := by simp at hi; omega
    subst hi0
    show (0x5C : Nat) = 0x5C
    rfl

lemma noBareQuote_aux :
    ∀ n s, List.length s ≤ n → NoBareQuote (appendQuoted [] s) := by
  intro n
  induction n with
  | zero =>
    intro s hs
    have : s = [] := List.eq_nil_of_length_eq_zero (by omega)
    subst this
    exact noBareQuote_nil
  | succ n ih =>
    intro s hs
    match s with
    | [] => exact noBareQuote_nil
    | b0 :: rest =>
      rw [appendQuoted_cons, appendQuoted_eq_append]
      simp only [List.nil_append]
      have hlen : (List.drop ((quoteStep b0 rest).2 - 1) rest).length ≤ n := by
        simp only [List.length_drop]
        simp only [List.length_cons] at hs
        omega
      refine noBareQuote_append ?_ (ih _ hlen)
      rcases quoteStep_cases b0 rest with ⟨h, hstep⟩ | ⟨h, hstep⟩
        | ⟨h22, h5C, hne, hnq, hepc, htake⟩
      · rw [hstep]
        exact noBareQuote_escQuote
      · rw [hstep]
        exact noBareQuote_of_no_quote (by decide)
      · exact noBareQuote_of_no_quote hnq

/-! Iteration count of the escaping loop. -/

/-- Number of iterations the escaping loop performs, fuel-indexed in the
same way as `appendQuotedGo`. -/
def quoteStepsGo : Nat → List Nat → Nat
  | _, [] => 0
  | 0, _ :: _ => 0
  | fuel + 1, b0 :: rest =>
    1 + quoteStepsGo fuel (List.drop ((quoteStep b0 rest).2 - 1) rest)

/-- Number of iterations of the escaping loop of `appendQuoted` on input
`s`. -/
def quoteSteps (s : List Nat) : Nat := quoteStepsGo s.length s

/-! Decoding an encoded scalar value recovers it (strict UTF-8 roundtrip). -/

lemma decodeUtf8_encodeRune (r : Nat) (hval : r < 0x110000)
    (hsur : ¬(0xD800 ≤ r ∧ r ≤ 0xDFFF)) (t : List Nat) :
    decodeUtf8 (encodeRune r ++ t) = (r, (encodeRune r).length) := by
  by_cases h1 : r < 0x80
  · rw [show encodeRune r = [r] from by simp [encodeRune, h1]]
    simp [decodeUtf8, h1]
  by_cases h2 : r < 0x800
  · have he : encodeRune r = [0xC0 + r / 64, 0x80 + r % 64] := by
      simp [encodeRune, h1, h2]
    rw [he]
    have hb0a : ¬(0xC0 + r / 64 < 0x80) := by omega
    have hb0b : ¬(0xC0 + r / 64 < 0xC2) := by omega
    have hb0c : 0xC0 + r / 64 ≤ 0xDF := by omega
    have hb1a : 0x80 ≤ 0x80 + r % 64 := by omega
    have hb1b : 0x80 + r % 64 ≤ 0xBF := by omega
    have hv : (0xC0 + r / 64 - 0xC0) * 64 + (0x80 + r % 64 - 0x80) = r := by
      omega
    simp [decodeUtf8, hb0a, hb0b, hb0c, hb1a, hb1b]
    omega
  by_cases h3 : r < 0x10000
  · have hnot : ¬((0xD800 ≤ r ∧ r ≤ 0xDFFF) ∨ 0x10FFFF < r) := by
      intro hh
      rcases hh with hh | hh
      · exact hsur hh
      · omega
    have he : encodeRune r
        = [0xE0 + r / 4096, 0x80 + (r / 64) % 64, 0x80 + r % 64] := by
      simp [encodeRune, h1, h2, h3, hnot]
    rw [he]
    have hb0a : ¬(0xE0 + r / 4096 < 0x80) := by omega
    have hb0b : ¬(0xE0 + r / 4096 < 0xC2) := by omega
    have hb0c : ¬(0xE0 + r / 4096 ≤ 0xDF) := by omega
    have hb0d : 0xE0 + r / 4096 ≤ 0xEF := by omega
    have hacc : utf8Accept3 (0xE0 + r / 4096) (0x80 + (r / 64) % 64) = true := by
      unfold utf8Accept3
      split_ifs with hE0 hED
      · simp only [decide_eq_true_eq]
        omega
      · simp only [decide_eq_true_eq]
        omega
      · simp only [decide_eq_true_eq]
        omega
    have hb2a : 0x80 ≤ 0x80 + r % 64 := by omega
    have hb2b : 0x80 + r % 64 ≤ 0xBF := by omega
    have hv : (0xE0 + r / 4096 - 0xE0) * 4096 + (0x80 + (r / 64) % 64 - 0x80) * 64
        + (0x80 + r % 64 - 0x80) = r := by omega
    simp [decodeUtf8, hb0a, hb0b, hb0c, hb0d, hacc, hb2a, hb2b]
    omega
  · have hnot : ¬((0xD800 ≤ r ∧ r ≤ 0xDFFF) ∨ 0x10FFFF < r) := by
      intro hh
      rcases hh with hh | hh
      · omega
      · omega
    have he : encodeRune r
        = [0xF0 + r / 262144, 0x80 + (r / 4096) % 64, 0x80 + (r / 64) % 64,
           0x80 + r % 64] := by
      simp [encodeRune, h1, h2, h3, hnot]
    rw [he]
    have hb0a : ¬(0xF0 + r / 262144 < 0x80) := by omega
    have hb0b : ¬(0xF0 + r / 262144 < 0xC2) := by omega
    have hb0c : ¬(0xF0 + r / 262144 ≤ 0xDF) := by omega
    have hb0d : ¬(0xF0 + r / 262144 ≤ 0xEF) := by omega
    have hb0e : 0xF0 + r / 262144 ≤ 0xF4 := by omega
    have hacc : utf8Accept4 (0xF0 + r / 262144) (0x80 + (r / 4096) % 64) = true := by
      unfold utf8Accept4
      split_ifs with hF0 hF4
      · simp only [decide_eq_true_eq]
        omega
      · simp only [decide_eq_true_eq]
        omega
      · simp only [decide_eq_true_eq]
        omega
    have hb2a : 0x80 ≤ 0x80 + (r / 64) % 64 := by omega
    have hb2b : 0x80 + (r / 64) % 64 ≤ 0xBF := by omega
    have hb3a : 0x80 ≤ 0x80 + r % 64 := by omega
    have hb3b : 0x80 + r % 64 ≤ 0xBF := by omega
    have hv : (0xF0 + r / 262144 - 0xF0) * 262144
        + (0x80 + (r / 4096) % 64 - 0x80) * 4096
        + (0x80 + (r / 64) % 64 - 0x80) * 64 + (0x80 + r % 64 - 0x80) = r := by
      omega
    simp [decodeUtf8, hb0a, hb0b, hb0c, hb0d, hb0e, hacc, hb2a, hb2b, hb3a,
      hb3b]
    omega

/-- The UTF-8 byte string encoding the code-point sequence `rs`. -/
def utf8Encode (rs : List Nat) : List Nat := rs.flatMap encodeRune

/-- One escaping step on a printable, non-quote, non-backslash scalar value
copies its encoding through unchanged. -/
lemma appendQuoted_printable_step (r : Nat) (hval : r < 0x110000)
    (hsur : ¬(0xD800 ≤ r ∧ r ≤ 0xDFFF)) (hp : isPrint r = true)
    (h22 : r ≠ 0x22) (h5C : r ≠ 0x5C) (buf t : List Nat) :
    appendQuoted buf (encodeRune r ++ t) = appendQuoted (buf ++ encodeRune r) t := by
  obtain ⟨b0, tl, he⟩ : ∃ b0 tl, encodeRune r = b0 :: tl := by
    cases hh : encodeRune r with
    | nil => exact absurd hh (encodeRune_ne_nil r)
    | cons a l => exact ⟨a, l, rfl⟩
  have hdec := decodeUtf8_encodeRune r hval hsur t
  rw [he, List.cons_append] at hdec
  rw [he, List.cons_append, appendQuoted_cons]
  have hstep : quoteStep b0 (tl ++ t) = (encodeRune r, (b0 :: tl).length) := by
    unfold quoteStep
    by_cases hb : b0 < 0x80
    · rw [if_pos hb]
      have hd : decodeUtf8 (b0 :: (tl ++ t)) = (b0, 1) := by
        simp [decodeUtf8, hb]
      have hbo : ((b0, 1) : Nat × Nat) = (r, (b0 :: tl).length) :=
        hd.symm.trans hdec
      rw [Prod.mk.injEq] at hbo
      obtain ⟨hbr, hlen⟩ := hbo
      subst hbr
      unfold quoteRune
      rw [if_neg (by omega : ¬((1 : Nat) = 1 ∧ b0 = 0xFFFD)),
        if_neg (by tauto : ¬(b0 = 0x22 ∨ b0 = 0x5C)), if_pos hp]
      rw [← hlen]
    · rw [if_neg hb]
      rw [hdec]
      have hr80 : 0x80 ≤ r := by
        by_contra hcon
        push_neg at hcon
        have h4 : encodeRune r = [r] := by simp [encodeRune, hcon]
        rw [h4] at he
        injection he with h5 h6
        omega
      have hcond : ¬((b0 :: tl).length = 1 ∧ r = 0xFFFD) := by
        rintro ⟨hl1, hrf⟩
        subst hrf
        have h3 : encodeRune 0xFFFD = [0xEF, 0xBF, 0xBD] := by decide
        rw [h3] at he
        have hlen3 : (b0 :: tl).length = 3 := by rw [← he]; rfl
        omega
      unfold quoteRune
      rw [if_neg hcond, if_neg (by tauto : ¬(r = 0x22 ∨ r = 0x5C)), if_pos hp]
  rw [hstep]
  have hlen1 : (b0 :: tl).length - 1 = tl.length := by simp
  rw [hlen1, List.drop_left]
  rw [← he]

lemma quoteStepsGo_le (f : Nat) : ∀ s, quoteStepsGo f s ≤ s.length := by
  induction f with
  | zero =>
    intro s
    cases s <;> simp [quoteStepsGo]
  | succ f ih =>
    intro s
    cases s with
    | nil => simp [quoteStepsGo]
    | cons b0 rest =>
      simp only [quoteStepsGo, List.length_cons]
      have h := ih (List.drop ((quoteStep b0 rest).2 - 1) rest)
      have h2 : (List.drop ((quoteStep b0 rest).2 - 1) rest).length
          ≤ rest.length := by
        simp [List.length_drop]
      omega

/-- All printable, non-quote, non-backslash scalar values pass through the
escaping loop with their encodings unchanged. -/
lemma appendQuoted_printable_all :
    ∀ rs : List Nat,
      (∀ r ∈ rs, r < 0x110000 ∧ ¬(0xD800 ≤ r ∧ r ≤ 0xDFFF)
        ∧ isPrint r = true ∧ r ≠ 0x22 ∧ r ≠ 0x5C) →
      ∀ buf, appendQuoted buf (utf8Encode rs) = buf ++ utf8Encode rs := by
  intro rs
  induction rs with
  | nil =>
    intro _h buf
    simp [utf8Encode, appendQuoted_nil]
  | cons r rs ih =>
    intro h buf
    obtain ⟨hval, hsur, hp, h22, h5C⟩ := h r (by simp)
    have he : utf8Encode (r :: rs) = encodeRune r ++ utf8Encode rs := by
      simp [utf8Encode]
    rw [he,
      appendQuoted_printable_step r hval hsur hp h22 h5C buf (utf8Encode rs),
      ih (fun x hx => h x (by simp [hx])) (buf ++ encodeRune r),
      List.append_assoc]

/-! The ten claims. -/

/-- C1: the Combined-format writer, on a `GET /` HTTP/1.1 request from peer
`[::1]:54321` with no URL user-info, status 200, 13 response bytes, elapsed
12,000,000 ns, start timestamp 2017-01-02T20:07:27+0100, empty referrer and
user agent `curl/7.51.0`, hands the sink exactly the bytes of
`::1 - - [02/Jan/2017:20:07:27 +0100] "GET / HTTP/1.1" 200 13 12.000ms "" "curl/7.51.0"`
followed by a single newline byte. -/
theorem claim1_combined_end_to_end :
    writeCombinedLog
      { method := strBytes "GET", requestURI := strBytes "/",
        proto := strBytes "HTTP/1.1", protoMajor := 1, host := [],
        remoteAddr := strBytes "[::1]:54321", urlUser := none,
        urlRequestURI := strBytes "/", referer := [],
        userAgent := strBytes "curl/7.51.0" }
      ⟨2, 1, 2017, 20, 7, 27, 60⟩ 200 13 12000000
    = strBytes "::1 - - [02/Jan/2017:20:07:27 +0100] \"GET / HTTP/1.1\" 200 13 12.000ms \"\" \"curl/7.51.0\""
      ++ [0x0A] := by
  decide

/-- C2: for every request and every status, size, timestamp and elapsed
value, the Common-format write is the common line plus a newline, the
Combined-format write is that same common line followed by exactly
one space, the quoted escaped referrer, one space, and the quoted escaped
user agent, then the newline; when both headers are absent (empty strings,
on which the escaping primitive still runs, producing empty output) the
line ends with two empty quoted fields. -/
theorem claim2_combined_extends_common (req : Request) (ts : LogTime)
    (status size delay : Int) :
    writeCommonLog req ts status size delay
      = buildCommonLogLine req ts status size delay ++ [0x0A] ∧
    writeCombinedLog req ts status size delay
      = buildCommonLogLine req ts status size delay
        ++ strBytes " \"" ++ appendQuoted [] req.referer
        ++ strBytes "\" \"" ++ appendQuoted [] req.userAgent
        ++ strBytes "\"" ++ [0x0A] ∧
    (req.referer = [] → req.userAgent = [] →
      writeCombinedLog req ts status size delay
        = buildCommonLogLine req ts status size delay
          ++ strBytes " \"\" \"\"" ++ [0x0A]) := by
  have e1 : strBytes " \"" = [0x20, 0x22] := by decide
  have e2 : strBytes "\" \"" = [0x22, 0x20, 0x22] := by decide
  have e3 : strBytes "\"" = [0x22] := by decide
  have e4 : strBytes " \"\" \"\"" = [0x20, 0x22, 0x22, 0x20, 0x22, 0x22] := by
    decide
  refine ⟨rfl, ?_, ?_⟩
  · simp only [writeCombinedLog]
    rw [appendQuoted_eq_append
        (appendQuoted (buildCommonLogLine req ts status size delay
          ++ strBytes " \"") req.referer ++ strBytes "\" \"") req.userAgent,
      appendQuoted_eq_append
        (buildCommonLogLine req ts status size delay ++ strBytes " \"")
        req.referer]
    simp [e1, e2, e3, List.append_assoc]
  · intro h1 h2
    simp only [writeCombinedLog]
    rw [h1, h2, appendQuoted_nil, appendQuoted_nil]
    simp [e1, e2, e4, List.append_assoc]

theorem claim2_combined_extends_common_witness :
    writeCombinedLog
      { method := strBytes "GET", requestURI := strBytes "/",
        proto := strBytes "HTTP/1.1", protoMajor := 1, host := [],
        remoteAddr := strBytes "1.2.3.4:80", urlUser := none,
        urlRequestURI := strBytes "/", referer := [], userAgent := [] }
      ⟨2, 1, 2017, 20, 7, 27, 60⟩ 200 13 12000000
      = buildCommonLogLine
          { method := strBytes "GET", requestURI := strBytes "/",
            proto := strBytes "HTTP/1.1", protoMajor := 1, host := [],
            remoteAddr := strBytes "1.2.3.4:80", urlUser := none,
            urlRequestURI := strBytes "/", referer := [], userAgent := [] }
          ⟨2, 1, 2017, 20, 7, 27, 60⟩ 200 13 12000000
        ++ strBytes " \"\" \"\"" ++ [0x0A] :=
  (claim2_combined_extends_common _ _ 200 13 12000000).2.2 rfl rfl

/-- C3 counterexample: a CONNECT request over protocol major version 2 whose
host field is empty does not take the host as target; the empty-target
fallback to the URL-reconstructed target runs after the CONNECT override, so
the target is `req.URL.RequestURI()` rather than the (empty) host. -/
theorem claim3_connect_counterexample :
    ({ method := strBytes "CONNECT", requestURI := strBytes "/orig",
       proto := strBytes "HTTP/2.0", protoMajor := 2, host := [],
       remoteAddr := [], urlUser := none,
       urlRequestURI := strBytes "/from-url", referer := [],
       userAgent := [] } : Request).protoMajor = 2 ∧
    ({ method := strBytes "CONNECT", requestURI := strBytes "/orig",
       proto := strBytes "HTTP/2.0", protoMajor := 2, host := [],
       remoteAddr := [], urlUser := none,
       urlRequestURI := strBytes "/from-url", referer := [],
       userAgent := [] } : Request).method = strBytes "CONNECT" ∧
    requestTarget
      { method := strBytes "CONNECT", requestURI := strBytes "/orig",
        proto := strBytes "HTTP/2.0", protoMajor := 2, host := [],
        remoteAddr := [], urlUser := none,
        urlRequestURI := strBytes "/from-url", referer := [],
        userAgent := [] }
      = strBytes "/from-url" ∧
    requestTarget
      { method := strBytes "CONNECT", requestURI := strBytes "/orig",
        proto := strBytes "HTTP/2.0", protoMajor := 2, host := [],
        remoteAddr := [], urlUser := none,
        urlRequestURI := strBytes "/from-url", referer := [],
        userAgent := [] }
      ≠ ({ method := strBytes "CONNECT", requestURI := strBytes "/orig",
           proto := strBytes "HTTP/2.0", protoMajor := 2, host := [],
           remoteAddr := [], urlUser := none,
           urlRequestURI := strBytes "/from-url", referer := [],
           userAgent := [] } : Request).host := by
  refine ⟨rfl, rfl, by decide, by decide⟩

/-- C3 (amended): for a CONNECT request over protocol major version 2 the
request-line target (before escaping) is the request's host field whenever
that field is non-empty, overriding both the original request-line URI and
the URL-reconstructed target; an empty host falls back to the
URL-reconstructed target. -/
theorem claim3_connect_target (req : Request)
    (h2 : req.protoMajor = 2) (hm : req.method = strBytes "CONNECT") :
    (req.host ≠ [] → requestTarget req = req.host) ∧
    (req.host = [] → requestTarget req = req.urlRequestURI) := by
  have hcond : req.protoMajor = 2 ∧ req.method = strBytes "CONNECT" := ⟨h2, hm⟩
  have ht : requestTarget req
      = if req.host = [] then req.urlRequestURI else req.host := by
    simp only [requestTarget, if_pos hcond]
  rw [ht]
  constructor
  · intro hne
    rw [if_neg hne]
  · intro heq
    rw [if_pos heq]

theorem claim3_connect_target_witness :
    requestTarget
      { method := strBytes "CONNECT", requestURI := strBytes "/ignored",
        proto := strBytes "HTTP/2.0", protoMajor := 2,
        host := strBytes "example.com:443", remoteAddr := [], urlUser := none,
        urlRequestURI := strBytes "/from-url", referer := [],
        userAgent := [] }
      = strBytes "example.com:443" :=
  (claim3_connect_target _ rfl rfl).1 (by decide)

/-- C4: a byte string that is the encoding of a sequence of scalar values,
all printable, none a double quote or a backslash, passes through the
escaping primitive unchanged (appended verbatim after the buffer). -/
theorem claim4_printable_unchanged (rs buf : List Nat)
    (h : ∀ r ∈ rs, r < 0x110000 ∧ ¬(0xD800 ≤ r ∧ r ≤ 0xDFFF)
      ∧ isPrint r = true ∧ r ≠ 0x22 ∧ r ≠ 0x5C) :
    appendQuoted buf (utf8Encode rs) = buf ++ utf8Encode rs :=
  appendQuoted_printable_all rs h buf

theorem claim4_printable_unchanged_witness :
    (∀ r ∈ [0x61, 0xE9], r < 0x110000 ∧ ¬(0xD800 ≤ r ∧ r ≤ 0xDFFF)
      ∧ isPrint r = true ∧ r ≠ 0x22 ∧ r ≠ 0x5C) ∧
    appendQuoted [] (utf8Encode [0x61, 0xE9]) = [] ++ utf8Encode [0x61, 0xE9] :=
  ⟨by decide, claim4_printable_unchanged [0x61, 0xE9] [] (by decide)⟩

/-- C5: on an input containing a double quote or a backslash, each such
input byte is rendered as exactly one backslash followed by the byte, and
the number of quote/backslash escape pairs in the output equals the number
of double-quote and backslash bytes in the input. -/
theorem claim5_escape_pairs (s : List Nat) (_h : 0 < countQB s) :
    escPairCount (appendQuoted [] s) = countQB s ∧
    (∀ b0 rest, b0 = 0x22 ∨ b0 = 0x5C →
      quoteStep b0 rest = ([0x5C, b0], 1)) := by
  refine ⟨escPairCount_appendQuoted s, ?_⟩
  intro b0 rest hqb
  rcases quoteStep_cases b0 rest with ⟨h1, h2⟩ | ⟨h1, h2⟩ | ⟨h22, h5C, _⟩
  · subst h1; exact h2
  · subst h1; exact h2
  · tauto

theorem claim5_escape_pairs_witness :
    0 < countQB [0x61, 0x22, 0x5C] ∧
    (escPairCount (appendQuoted [] [0x61, 0x22, 0x5C])
        = countQB [0x61, 0x22, 0x5C] ∧
      ∀ b0 rest, b0 = 0x22 ∨ b0 = 0x5C →
        quoteStep b0 rest = ([0x5C, b0], 1)) :=
  ⟨by decide, claim5_escape_pairs [0x61, 0x22, 0x5C] (by decide)⟩

/-- C6: when the scanner meets a single byte on which decoding fails
(RuneError with width 1), the step emits `\xHH` with the lowercase hex
digits of that raw byte and the scan advances by exactly one byte. -/
theorem claim6_invalid_byte_hex_escape (b0 : Nat) (rest buf : List Nat)
    (h : decodeUtf8 (b0 :: rest) = (0xFFFD, 1)) :
    quoteStep b0 rest
      = ([0x5C, 0x78, lowerhex (b0 / 16), lowerhex (b0 % 16)], 1) ∧
    appendQuoted buf (b0 :: rest)
      = appendQuoted (buf ++ [0x5C, 0x78, lowerhex (b0 / 16), lowerhex (b0 % 16)])
          rest := by
  have hb : 0x80 ≤ b0 := by
    by_contra hcon
    push_neg at hcon
    have hd : decodeUtf8 (b0 :: rest) = (b0, 1) := by simp [decodeUtf8, hcon]
    rw [hd, Prod.mk.injEq] at h
    omega
  have hstep : quoteStep b0 rest
      = ([0x5C, 0x78, lowerhex (b0 / 16), lowerhex (b0 % 16)], 1) := by
    unfold quoteStep
    rw [if_neg (by omega : ¬ b0 < 0x80), h]
    unfold quoteRune
    rw [if_pos ⟨rfl, rfl⟩]
  refine ⟨hstep, ?_⟩
  rw [appendQuoted_cons, hstep]
  rfl

theorem claim6_invalid_byte_hex_escape_witness :
    decodeUtf8 [0xFF] = (0xFFFD, 1) ∧
    (quoteStep 0xFF []
        = ([0x5C, 0x78, lowerhex (0xFF / 16), lowerhex (0xFF % 16)], 1) ∧
      appendQuoted [] [0xFF]
        = appendQuoted ([] ++ [0x5C, 0x78, lowerhex (0xFF / 16),
            lowerhex (0xFF % 16)]) []) :=
  ⟨by decide, claim6_invalid_byte_hex_escape 0xFF [] [] (by decide)⟩

/-- C7: for every nonnegative elapsed duration the rendered field is a
decimal number with exactly 3 fractional digits followed by `ms`, whose
value in thousandths of a millisecond is within rounding distance (at most
500 ns) of nanoseconds divided by 10^6; in particular 12,000,000 ns renders
as `12.000ms` and 500,000 ns as `0.500ms`. -/
theorem claim7_pretty_duration (ns : Int) (h : 0 ≤ ns) :
    (∃ m : Nat, prettyDuration ns
        = natDigits (m / 1000) ++ [0x2E] ++ pad3 (m % 1000) ++ strBytes "ms"
      ∧ ((m : Int) * 1000 - ns).natAbs ≤ 500) ∧
    prettyDuration 12000000 = strBytes "12.000ms" ∧
    prettyDuration 500000 = strBytes "0.500ms" := by
  refine ⟨?_, by decide, by decide⟩
  unfold prettyDuration
  rw [if_neg (by omega : ¬ ns < 0)]
  simp only [List.nil_append]
  refine ⟨ns.natAbs / 1000
    + (if 500 < ns.natAbs % 1000
        ∨ (ns.natAbs % 1000 = 500 ∧ (ns.natAbs / 1000) % 2 = 1)
       then 1 else 0), rfl, ?_⟩
  split_ifs with hcase
  · omega
  · omega

theorem claim7_pretty_duration_witness :
    (0 : Int) ≤ 12000000 ∧
    ((∃ m : Nat, prettyDuration 12000000
        = natDigits (m / 1000) ++ [0x2E] ++ pad3 (m % 1000) ++ strBytes "ms"
      ∧ ((m : Int) * 1000 - 12000000).natAbs ≤ 500) ∧
      prettyDuration 12000000 = strBytes "12.000ms" ∧
      prettyDuration 500000 = strBytes "0.500ms") :=
  ⟨by decide, claim7_pretty_duration 12000000 (by decide)⟩

/-- C8: in the fallback rendering switch, a code point above the maximum
valid value `0x10FFFF` is treated exactly as the replacement character
U+FFFD: the emitted escape equals the one for `0xFFFD`, namely `�`. -/
theorem claim8_above_max_replacement (r b0 : Nat) (h : 0x10FFFF < r) :
    escFallback r b0 = escFallback 0xFFFD b0 ∧
    escFallback r b0 = hexEscapeU 0xFFFD := by
  have h1 : escFallback r b0 = hexEscapeU 0xFFFD := by
    unfold escFallback
    rw [if_neg (by omega), if_pos h]
  have h2 : escFallback 0xFFFD b0 = hexEscapeU 0xFFFD := by
    unfold escFallback
    rw [if_neg (by omega), if_neg (by omega), if_pos (by omega)]
  exact ⟨h1.trans h2.symm, h1⟩

theorem claim8_above_max_replacement_witness :
    0x10FFFF < 0x110000 ∧
    (escFallback 0x110000 0 = escFallback 0xFFFD 0 ∧
      escFallback 0x110000 0 = hexEscapeU 0xFFFD) :=
  ⟨by decide, claim8_above_max_replacement 0x110000 0 (by decide)⟩

/-- C9: the bytes the escaping primitive appends after any buffer depend
only on the input, and in them every double-quote byte is immediately
preceded by a backslash byte (no unescaped quote, so the surrounding quoted
field stays well delimited). -/
theorem claim9_no_bare_quote (buf s : List Nat) :
    appendQuoted buf s = buf ++ appendQuoted [] s ∧
    NoBareQuote (appendQuoted [] s) :=
  ⟨appendQuoted_eq_append buf s, noBareQuote_aux s.length s le_rfl⟩

theorem claim9_no_bare_quote_witness :
    appendQuoted [0x61] [0x22] = [0x61] ++ appendQuoted [] [0x22] ∧
    NoBareQuote (appendQuoted [] [0x22]) :=
  claim9_no_bare_quote [0x61] [0x22]

/-- C10: the escaping loop is total: it advances by at least one byte per
iteration, so on any input it performs at most as many iterations as the
input has bytes. -/
theorem claim10_termination (s : List Nat) :
    quoteSteps s ≤ s.length ∧ ∀ b0 rest, 1 ≤ (quoteStep b0 rest).2 :=
  ⟨quoteStepsGo_le s.length s, fun b0 rest => quoteStep_width_pos b0 rest⟩

end Logger
